import Mathlib

set_option maxRecDepth 100000

/-!
Verification of the marketplace assistant (src/app.py): the inline listing
parser (tab 1), the availability collector (tab 2), and the model client
(call_grok / encode_image).  Strings are modelled as lists of characters;
Python operations (str.split(sep), str.strip(), str.split(), str.startswith,
substring containment, base64) are embedded as executable Lean functions.
-/

/-- Python's whitespace set for str.strip() / str.split() (ASCII part;
the Unicode extras are irrelevant to the inputs considered here). -/
def isPySpace (c : Char) : Bool :=
  c = ' ' || c = '\t' || c = '\n' || c = '\r' || c = '\x0b' || c = '\x0c'

/-- Python str.strip(): remove leading and trailing whitespace. -/
def stripChars (l : List Char) : List Char :=
  ((l.dropWhile isPySpace).reverse.dropWhile isPySpace).reverse

/-- Helper for `pyWords`: accumulate the current word (reversed) while
scanning. -/
def pyWordsAux : List Char → List Char → List (List Char)
  | [], [] => []
  | [], acc => [acc.reverse]
  | c :: t, acc =>
    if isPySpace c then
      match acc with
      | [] => pyWordsAux t []
      | _ :: _ => acc.reverse :: pyWordsAux t []
    else pyWordsAux t (c :: acc)

/-- Python str.split() with no separator: whitespace-delimited words,
empty words discarded. -/
def pyWords (l : List Char) : List (List Char) :=
  pyWordsAux l []

/-- Index of the first occurrence of `sep` in `s` (leftmost position at
which `sep` is a prefix of the rest), or `none`. -/
def findSub (sep : List Char) : List Char → Option Nat
  | [] => if sep.isPrefixOf [] then some 0 else none
  | c :: t => if sep.isPrefixOf (c :: t) then some 0 else (findSub sep t).map (· + 1)

/-- Python's `sep in s` substring test. -/
def hasSub (sep s : List Char) : Bool :=
  (findSub sep s).isSome

/-- Fuel-driven worker for `splitOnSub`; the fuel is an upper bound on the
number of separator occurrences and is never exhausted when called through
`splitOnSub` with a non-empty separator. -/
def splitOnSubAux (sep : List Char) : Nat → List Char → List (List Char)
  | 0, s => [s]
  | fuel + 1, s =>
    match findSub sep s with
    | none => [s]
    | some i => s.take i :: splitOnSubAux sep fuel (s.drop (i + sep.length))

/-- Python str.split(sep): split at each non-overlapping occurrence of
`sep`, scanning left to right. -/
def splitOnSub (sep s : List Char) : List (List Char) :=
  splitOnSubAux sep (s.length + 1) s

/-- src/app.py line 78: the replace("−", "-") normalization applied to the
model output before parsing. -/
def normalizeMinus (l : List Char) : List Char :=
  l.map (fun c => if c = '−' then '-' else c)

def titleMarker : List Char := "Title:".toList
def descriptionMarker : List Char := "Description:".toList
def priceMarker : List Char := "Price:".toList
def httpMarker : List Char := "http".toList

/-- Predicate: `sep` has no non-trivial self-overlap, i.e. no proper
non-empty prefix of it is also one of its suffixes.  All three literal
markers satisfy this. -/
def NoSelfOverlap (sep : List Char) : Prop :=
  ∀ k, k < sep.length → 0 < k → sep.drop k ≠ sep.take (sep.length - k)

/-- A string containing none of the three literal section markers. -/
def markerFree (l : List Char) : Bool :=
  !(hasSub titleMarker l || hasSub descriptionMarker l || hasSub priceMarker l)

/-- Result record of the tab-1 listing parsing (item_name, description,
price_suggestion, links in src/app.py lines 79-91). -/
structure ParsedListing where
  item_name : List Char
  description : List Char
  price_suggestion : List Char
  links : List (List Char)
deriving DecidableEq

def noPriceInfoMsg : List Char := "Error: No price info".toList

def incompleteMsg : List Char :=
  "Error: Incomplete response - try better photos or details".toList

/-- src/app.py lines 78-91: normalize, check the three markers with `in`,
split on "Title:" and index [1], split that on "Description:" (index [1] is
a plain Python list indexing and raises IndexError when the piece is
missing, modelled by `none`), split the remainder on "Price:", strip the
pieces, and collect the whitespace tokens of the price text that start
with "http".  The fallback branch returns the fixed item/error fields with
the normalized text as description. -/
def parseListing (combined_output : List Char) : Option ParsedListing :=
  let x := normalizeMinus combined_output
  if hasSub titleMarker x && hasSub descriptionMarker x && hasSub priceMarker x then
    match (splitOnSub titleMarker x)[1]? with
    | none => none
    | some afterTitle =>
      let parts := splitOnSub descriptionMarker afterTitle
      match parts[1]? with
      | none => none
      | some afterDescription =>
        let item_name := stripChars (parts.getD 0 [])
        let desc_parts := splitOnSub priceMarker afterDescription
        let description := stripChars (desc_parts.getD 0 [])
        let price_suggestion :=
          if desc_parts.length > 1 then stripChars (desc_parts.getD 1 []) else noPriceInfoMsg
        let links := (pyWords price_suggestion).filter (fun w => httpMarker.isPrefixOf w)
        some ⟨item_name, description, price_suggestion, links⟩
  else
    some ⟨"Item".toList, x, incompleteMsg, []⟩

/-- No character of any output field of a parse result is the non-ASCII
minus sign. -/
def minusFreeListing : Option ParsedListing → Bool
  | none => true
  | some r =>
    r.item_name.all (fun c => c ≠ '−') && r.description.all (fun c => c ≠ '−') &&
      r.price_suggestion.all (fun c => c ≠ '−') &&
      r.links.all (fun w => w.all (fun c => c ≠ '−'))

/-- The reconstruction "Title: X\nDescription: Y\nPrice: Z" from §8 of the
specification. -/
def reconstructListing (X Y Z : List Char) : List Char :=
  titleMarker ++ [' '] ++ X ++ ['\n'] ++ descriptionMarker ++ [' '] ++ Y ++ ['\n'] ++
    priceMarker ++ [' '] ++ Z

/-! ## Availability collector (src/app.py lines 117-141) -/

/-- Per-day widget state in tab 2: three checkboxes and the custom text
field. -/
structure DayAvail where
  morning : Bool
  afternoon : Bool
  evening : Bool
  custom : String
deriving DecidableEq

/-- src/app.py line 117: the fixed list of weekdays. -/
def weekDays : List String :=
  ["Monday", "Tuesday", "Wednesday", "Thursday", "Friday", "Saturday", "Sunday"]

/-- src/app.py lines 132-136: the selected slot labels for one day, in the
fixed order Morning, Afternoon, Evening, Custom (custom only when the text
is truthy, i.e. non-empty). -/
def daySlots (a : DayAvail) : List String :=
  (if a.morning then ["Morning"] else []) ++
  (if a.afternoon then ["Afternoon"] else []) ++
  (if a.evening then ["Evening"] else []) ++
  (if a.custom ≠ "" then ["Custom: " ++ a.custom] else [])

/-- Python sep.join(list). -/
def pyJoin (sep : String) : List String → String
  | [] => ""
  | [x] => x
  | x :: xs => x ++ sep ++ pyJoin sep xs

/-- src/app.py lines 119-138 generalized over the day list: the insertion
ordered dict day ↦ ", ".join(slots), keeping only days with a non-empty
slot list. -/
def availDictAux (w : String → DayAvail) : List String → List (String × String)
  | [] => []
  | d :: ds =>
    let slots := daySlots (w d)
    if slots = [] then availDictAux w ds
    else (d, pyJoin ", " slots) :: availDictAux w ds

/-- src/app.py lines 118-138: availability_dict built by the day loop. -/
def availability_dict (w : String → DayAvail) : List (String × String) :=
  availDictAux w weekDays

/-- src/app.py line 141: "; ".join of the "day: slots" entries, with the
Python `or` falling back to the fixed string when the join is empty. -/
def availability_str (w : String → DayAvail) : String :=
  let joined := pyJoin "; " ((availability_dict w).map (fun p => p.1 ++ ": " ++ p.2))
  if joined = "" then "No specific availability set" else joined

/-- The availability summary as §4.5 of the specification words it: per-day
labels joined with ", ", days with at least one selection rendered as
"day: labels" and joined with "; ", and the fixed fallback exactly when
zero days have any selection.  Stated separately from `availability_str`
so the code/spec agreement is a theorem. -/
def availabilitySpec (w : String → DayAvail) : String :=
  let selected := weekDays.filter (fun d => !(daySlots (w d)).isEmpty)
  if selected.isEmpty then "No specific availability set"
  else pyJoin "; " (selected.map (fun d => d ++ ": " ++ pyJoin ", " (daySlots (w d))))

def allOffWeek : String → DayAvail := fun _ => ⟨false, false, false, ""⟩

def mondayMorningCustomWeek : String → DayAvail := fun d =>
  if d = "Monday" then ⟨true, false, false, "4pm"⟩ else ⟨false, false, false, ""⟩

/-! ## Base64 (Python base64.b64encode, used by encode_image) -/

def b64Table : List Char :=
  "ABCDEFGHIJKLMNOPQRSTUVWXYZabcdefghijklmnopqrstuvwxyz0123456789+/".toList

def encodeB64Char (n : Nat) : Char := b64Table.getD n 'A'

def decodeB64Char (c : Char) : Nat := b64Table.indexOf c

/-- Standard base64 encoding of a byte list (values < 256), with '='
padding, as produced by Python's base64.b64encode. -/
def b64encode : List Nat → List Char
  | a :: b :: c :: rest =>
    encodeB64Char (a / 4) :: encodeB64Char (a % 4 * 16 + b / 16) ::
      encodeB64Char (b % 16 * 4 + c / 64) :: encodeB64Char (c % 64) :: b64encode rest
  | [a, b] =>
    [encodeB64Char (a / 4), encodeB64Char (a % 4 * 16 + b / 16), encodeB64Char (b % 16 * 4), '=']
  | [a] => [encodeB64Char (a / 4), encodeB64Char (a % 4 * 16), '=', '=']
  | [] => []

/-- Base64 decoding (inverse of `b64encode` on its image): a final block
"xy==" holds one byte, a final block "xyz=" holds two, and any other
4-character block holds three. -/
def b64decode : List Char → List Nat
  | c1 :: c2 :: c3 :: c4 :: rest =>
    if c3 = '=' ∧ c4 = '=' ∧ rest = [] then
      [decodeB64Char c1 * 4 + decodeB64Char c2 / 16]
    else if c4 = '=' ∧ rest = [] then
      [decodeB64Char c1 * 4 + decodeB64Char c2 / 16,
       decodeB64Char c2 % 16 * 16 + decodeB64Char c3 / 4]
    else
      (decodeB64Char c1 * 4 + decodeB64Char c2 / 16) ::
        (decodeB64Char c2 % 16 * 16 + decodeB64Char c3 / 4) ::
        (decodeB64Char c3 % 4 * 64 + decodeB64Char c4) :: b64decode rest
  | _ => []

/-! ## Model client (src/app.py lines 12-49) -/

/-- One element of a multimodal message content list. -/
inductive ContentPart where
  | text (text : String)
  | image_url (url : String)

/-- Message content: either the plain prompt string or a text+images part
list. -/
inductive MsgContent where
  | plain (text : String)
  | parts (parts : List ContentPart)

structure ChatMessage where
  role : String
  content : MsgContent

structure SearchParameters where
  mode : String
deriving DecidableEq

/-- Request body built by call_grok (src/app.py lines 29-37).  The
temperature is the literal 0.7, modelled as the rational 7/10 since the
code never computes with it. -/
structure GrokPayload where
  model : String
  messages : List ChatMessage
  temperature : ℚ
  max_tokens : Nat
  search_parameters : Option SearchParameters

/-- src/app.py lines 12-14: encode_image reads the saved file and returns
the base64 text of its bytes; modelled on the byte contents directly. -/
def encode_image (bytes : List Nat) : String := String.mk (b64encode bytes)

/-- The data URI embedding one encoded image (src/app.py line 25; fixed
image/jpeg label regardless of actual format). -/
def dataUri (b64 : String) : String := "data:image/jpeg;base64," ++ b64

/-- src/app.py lines 17-27: the single user message, whose content is the
plain prompt when no images are given and otherwise one text part followed
by one image part per image in order. -/
def call_grok_messages (prompt : String) (images : List (List Nat)) : List ChatMessage :=
  if images.isEmpty then [⟨"user", MsgContent.plain prompt⟩]
  else
    [⟨"user", MsgContent.parts (ContentPart.text prompt ::
        images.map (fun img => ContentPart.image_url (dataUri (encode_image img))))⟩]

/-- src/app.py lines 29-37: the payload with fixed model name, temperature
0.7, max_tokens 300, and search_parameters mode "on" exactly when
use_search. -/
def buildPayload (prompt : String) (images : List (List Nat)) (use_search : Bool) :
    GrokPayload :=
  { model := "grok-4-1-fast-non-reasoning"
    messages := call_grok_messages prompt images
    temperature := 7 / 10
    max_tokens := 300
    search_parameters := if use_search then some ⟨"on"⟩ else none }

/-- Behaviour of the remote endpoint for one POST: the request raises a
transport error, or a response arrives with a status code and a body from
which extracting choices[0].message.content either succeeds or fails
(malformed body, missing keys, invalid JSON). -/
inductive HttpOutcome where
  | netError (msg : String)
  | response (status : Nat) (body : Except String String)

/-- requests.Response.raise_for_status raises exactly for 4xx and 5xx
status codes. -/
def raisesForStatus (status : Nat) : Bool :=
  400 ≤ status && status < 600

/-- src/app.py line 49: the except branch formats any exception text. -/
def errorString (detail : String) : String :=
  "Error: " ++ detail ++ " - Retry or check connection/key."

/-- Rendering of str(HTTPError) for a status failure (the exact text does
not matter to any claim, only that it is wrapped by `errorString`). -/
def httpErrorDetail (status : Nat) : String :=
  toString status ++ " Client Error or Server Error"

/-- src/app.py lines 44-49: the try block around the POST, the status
check and the body field extraction; every failure is converted to an
"Error: ..." string, a 2xx (or any non-raising) response with a well
formed body yields choices[0].message.content.  The remote behaviour is
supplied as the function `post`. -/
def call_grok (post : GrokPayload → HttpOutcome) (prompt : String)
    (images : List (List Nat)) (use_search : Bool) : String :=
  match post (buildPayload prompt images use_search) with
  | .netError msg => errorString msg
  | .response status body =>
    if raisesForStatus status then errorString (httpErrorDetail status)
    else
      match body with
      | .error msg => errorString msg
      | .ok content => content

/-- The failure cases of one outcome: transport error, 4xx/5xx status, or
a body from which no content can be extracted. -/
def isFailure : HttpOutcome → Bool
  | .netError _ => true
  | .response status body =>
    raisesForStatus status ||
      (match body with
       | .error _ => true
       | .ok _ => false)

/-- A remote behaviour that always fails at the transport layer. -/
def postNetError : GrokPayload → HttpOutcome := fun _ => .netError "Connection refused"

/-- A remote behaviour that always succeeds with status 200 and the body
text "Title: X". -/
def postOk200 : GrokPayload → HttpOutcome :=
  fun _ => .response 200 (.ok "Title: X")

/-- A remote behaviour producing a 304 response (non-2xx, but not an error
status, so raise_for_status does not raise) whose body still parses. -/
def postOk304 : GrokPayload → HttpOutcome :=
  fun _ => .response 304 (.ok "cached content")

/-! ## Sanity examples -/

example :
    parseListing "Title: Graco Car Seat\nDescription: Barely used, great condition\nPrice: $40-60, see https://ebay.com/x".toList =
      some ⟨"Graco Car Seat".toList, "Barely used, great condition".toList,
        "$40-60, see https://ebay.com/x".toList, ["https://ebay.com/x".toList]⟩ := by
  decide

example :
    parseListing "Title: A\nDescription: B\nPrice: C Title: D".toList =
      some ⟨"A".toList, "B".toList, "C".toList, []⟩ := by
  decide

example :
    parseListing "Price: A Title: B Description: C".toList =
      some ⟨"B".toList, "C".toList, noPriceInfoMsg, []⟩ := by
  decide

example : parseListing "no markers −here".toList =
    some ⟨"Item".toList, "no markers -here".toList, incompleteMsg, []⟩ := by
  decide

example : reconstructListing "A".toList "B".toList "C".toList =
    "Title: A\nDescription: B\nPrice: C".toList := by
  decide

example : availability_str allOffWeek = "No specific availability set" := by decide

example : availability_str mondayMorningCustomWeek = "Monday: Morning, Custom: 4pm" := by
  decide

example : b64encode [77, 97, 110] = "TWFu".toList := by decide
example : b64encode [77, 97] = "TWE=".toList := by decide
example : b64encode [77] = "TQ==".toList := by decide
example : b64decode (b64encode [0, 1, 2, 3, 254, 255, 17]) = [0, 1, 2, 3, 254, 255, 17] := by
  decide

/-! ## Lemmas about the substring machinery -/

theorem isPrefixOf_exists {sep s : List Char} :
    sep.isPrefixOf s = true ↔ ∃ w, s = sep ++ w := by
  induction sep generalizing s with
  | nil => simp [List.isPrefixOf]
  | cons a as ih =>
    cases s with
    | nil => simp [List.isPrefixOf]
    | cons b bs =>
      simp only [List.isPrefixOf, Bool.and_eq_true, beq_iff_eq, ih, List.cons_append,
        List.cons.injEq]
      constructor
      · rintro ⟨rfl, w, rfl⟩; exact ⟨w, rfl, rfl⟩
      · rintro ⟨w, rfl, rfl⟩; exact ⟨rfl, w, rfl⟩

theorem findSub_cons (sep : List Char) (c : Char) (t : List Char) :
    findSub sep (c :: t) =
      if sep.isPrefixOf (c :: t) then some 0 else (findSub sep t).map (· + 1) := rfl

theorem findSub_zero {sep s w : List Char} (hs : s = sep ++ w) (hsep : sep ≠ []) :
    findSub sep s = some 0 := by
  cases s with
  | nil =>
    exact absurd (List.append_eq_nil.mp hs.symm).1 hsep
  | cons c t =>
    rw [findSub_cons, if_pos (isPrefixOf_exists.mpr ⟨w, hs⟩)]

theorem isSome_map_add_one {o : Option Nat} :
    (o.map (· + 1)).isSome = o.isSome := by
  cases o <;> rfl

theorem hasSub_iff {sep s : List Char} :
    hasSub sep s = true ↔ ∃ u v, s = u ++ sep ++ v := by
  induction s with
  | nil =>
    constructor
    · intro h
      rw [hasSub, findSub] at h
      split at h
      · rename_i hp
        obtain ⟨w, hw⟩ := isPrefixOf_exists.mp hp
        obtain ⟨h1, h2⟩ := List.append_eq_nil.mp hw.symm
        exact ⟨[], [], by simp [h1]⟩
      · simp at h
    · rintro ⟨u, v, huv⟩
      obtain ⟨h1, h2⟩ := List.append_eq_nil.mp huv.symm
      obtain ⟨h3, h4⟩ := List.append_eq_nil.mp h1
      rw [hasSub, findSub, if_pos (isPrefixOf_exists.mpr ⟨[], by simp [h4]⟩)]
      rfl
  | cons c t ih =>
    rw [hasSub, findSub_cons]
    constructor
    · intro h
      split at h
      · rename_i hp
        obtain ⟨w, hw⟩ := isPrefixOf_exists.mp hp
        exact ⟨[], w, by simp [hw]⟩
      · rw [isSome_map_add_one] at h
        obtain ⟨u, v, huv⟩ := ih.mp h
        exact ⟨c :: u, v, by simp [huv]⟩
    · rintro ⟨u, v, huv⟩
      split
      · rfl
      · rename_i hp
        rw [isSome_map_add_one]
        apply ih.mpr
        cases u with
        | nil =>
          exact absurd (isPrefixOf_exists.mpr ⟨v, by simpa using huv⟩) hp
        | cons u0 u' =>
          rw [List.cons_append, List.cons_append, List.cons.injEq] at huv
          exact ⟨u', v, huv.2⟩

theorem hasSub_decomp (sep u v : List Char) : hasSub sep (u ++ sep ++ v) = true :=
  hasSub_iff.mpr ⟨u, v, rfl⟩

theorem hasSub_of_right {sep v : List Char} (u : List Char) (h : hasSub sep v = true) :
    hasSub sep (u ++ v) = true := by
  obtain ⟨a, b, rfl⟩ := hasSub_iff.mp h
  exact hasSub_iff.mpr ⟨u ++ a, b, by simp⟩

theorem hasSub_of_left {sep u : List Char} (w : List Char) (h : hasSub sep u = true) :
    hasSub sep (u ++ w) = true := by
  obtain ⟨a, b, rfl⟩ := hasSub_iff.mp h
  exact hasSub_iff.mpr ⟨a, b ++ w, by simp⟩

theorem hasSub_nil_eq_false {sep : List Char} (hsep : sep ≠ []) :
    hasSub sep [] = false := by
  rw [Bool.eq_false_iff]
  intro h
  obtain ⟨u, v, huv⟩ := hasSub_iff.mp h
  obtain ⟨h1, -⟩ := List.append_eq_nil.mp huv.symm
  exact hsep (List.append_eq_nil.mp h1).2

theorem noSelfOverlap_title : NoSelfOverlap titleMarker := by
  unfold NoSelfOverlap; decide

theorem noSelfOverlap_description : NoSelfOverlap descriptionMarker := by
  unfold NoSelfOverlap; decide

theorem noSelfOverlap_price : NoSelfOverlap priceMarker := by
  unfold NoSelfOverlap; decide

theorem not_isPrefixOf_mid {sep u : List Char} (v : List Char) (hov : NoSelfOverlap sep)
    (hu : hasSub sep u = false) (hne : u ≠ []) :
    sep.isPrefixOf (u ++ sep ++ v) = false := by
  rw [Bool.eq_false_iff]
  intro hp
  obtain ⟨w, hw⟩ := isPrefixOf_exists.mp hp
  rw [List.append_assoc] at hw
  rcases List.append_eq_append_iff.mp hw with ⟨e, he, hev⟩ | ⟨e, he, -⟩
  · -- sep = u ++ e
    rcases List.eq_nil_or_concat e with rfl | -
    · rw [List.append_nil] at he
      rw [← he] at hu
      rw [hasSub_iff.mpr ⟨[], [], by simp⟩] at hu
      exact Bool.false_ne_true hu.symm
    · have hk1 : 0 < u.length := List.length_pos.mpr hne
      have hke : 0 < e.length := by
        rcases List.eq_nil_or_concat e with rfl | ⟨e', x, rfl⟩
        · rw [List.append_nil] at he
          rw [← he] at hu
          rw [hasSub_iff.mpr ⟨[], [], by simp⟩] at hu
          exact absurd hu.symm Bool.false_ne_true
        · simp
      have hk2 : u.length < sep.length := by
        have := congrArg List.length he
        simp only [List.length_append] at this
        omega
      have hdrop : sep.drop u.length = e := by
        rw [he, List.drop_left]
      have htake : sep.take (sep.length - u.length) = e := by
        have hlen : e.length = sep.length - u.length := by
          have := congrArg List.length he
          simp only [List.length_append] at this
          omega
        rcases List.append_eq_append_iff.mp hev with ⟨f, hf, -⟩ | ⟨f, hf, -⟩
        · -- e = sep ++ f : impossible by length
          have := congrArg List.length hf
          simp only [List.length_append] at this
          omega
        · -- sep = e ++ f
          rw [← hlen, hf, List.take_left]
      exact hov u.length hk2 hk1 (hdrop.trans htake.symm)
  · -- u = sep ++ e
    rw [he] at hu
    rw [hasSub_of_left e (hasSub_iff.mpr ⟨[], [], by simp⟩)] at hu
    exact absurd hu.symm Bool.false_ne_true

theorem findSub_zero' {sep : List Char} (w : List Char) {s : List Char}
    (hs : s = sep ++ w) (hsep : sep ≠ []) : findSub sep s = some 0 :=
  findSub_zero hs hsep

theorem findSub_boundary {sep : List Char} (u v : List Char) (hov : NoSelfOverlap sep)
    (hsep : sep ≠ []) (hu : hasSub sep u = false) :
    findSub sep (u ++ sep ++ v) = some u.length := by
  induction u with
  | nil => exact findSub_zero' v (by simp) hsep
  | cons c u' ih =>
    have hu' : hasSub sep u' = false := by
      rw [Bool.eq_false_iff]
      intro h
      rw [show c :: u' = [c] ++ u' from rfl, hasSub_of_right [c] h] at hu
      exact absurd hu.symm Bool.false_ne_true
    have hnp : sep.isPrefixOf (c :: (u' ++ sep ++ v)) = false := by
      have := not_isPrefixOf_mid v hov hu (List.cons_ne_nil c u')
      simpa using this
    rw [show (c :: u') ++ sep ++ v = c :: (u' ++ sep ++ v) by simp, findSub_cons,
      if_neg (by rw [Bool.eq_false_iff] at hnp; simpa using hnp), ih hu']
    rfl

theorem findSub_le {sep s : List Char} {i : Nat} (h : findSub sep s = some i) :
    i + sep.length ≤ s.length := by
  induction s generalizing i with
  | nil =>
    simp only [findSub] at h
    split at h
    · rename_i hp
      obtain ⟨w, hw⟩ := isPrefixOf_exists.mp hp
      obtain ⟨h1, -⟩ := List.append_eq_nil.mp hw.symm
      cases h
      simp [h1]
    · cases h
  | cons c t ih =>
    rw [findSub_cons] at h
    split at h
    · rename_i hp
      obtain ⟨w, hw⟩ := isPrefixOf_exists.mp hp
      cases h
      have hlen := congrArg List.length hw
      simp only [List.length_cons, List.length_append] at hlen ⊢
      omega
    · rw [Option.map_eq_some'] at h
      obtain ⟨j, hj, rfl⟩ := h
      have := ih hj
      simp only [List.length_cons]
      omega

theorem findSub_none_of_hasSub_false {sep s : List Char} (h : hasSub sep s = false) :
    findSub sep s = none := by
  have := congrArg (fun b => b = false) h
  rcases hfs : findSub sep s with _ | i
  · rfl
  · rw [hasSub, hfs] at h
    cases h

theorem splitOnSubAux_congr (sep : List Char) (hsep : sep ≠ []) :
    ∀ f g s, s.length < f → s.length < g →
      splitOnSubAux sep f s = splitOnSubAux sep g s := by
  intro f
  induction f with
  | zero => intro g s hf; omega
  | succ f' ihf =>
    intro g s hf hg
    cases g with
    | zero => omega
    | succ g' =>
      rcases hfs : findSub sep s with _ | i
      · simp only [splitOnSubAux, hfs]
      · have hle := findSub_le hfs
        have hsl : 0 < sep.length := List.length_pos.mpr hsep
        have hdl : (s.drop (i + sep.length)).length < f' := by
          rw [List.length_drop]; omega
        have hdg : (s.drop (i + sep.length)).length < g' := by
          rw [List.length_drop]; omega
        simp only [splitOnSubAux, hfs]
        rw [ihf g' _ hdl hdg]

theorem splitOnSub_of_none {sep s : List Char} (h : findSub sep s = none) :
    splitOnSub sep s = [s] := by
  rw [splitOnSub, splitOnSubAux, h]

theorem splitOnSub_of_some {sep s : List Char} {i : Nat} (hsep : sep ≠ [])
    (h : findSub sep s = some i) :
    splitOnSub sep s = s.take i :: splitOnSub sep (s.drop (i + sep.length)) := by
  have hle := findSub_le h
  have hsl : 0 < sep.length := List.length_pos.mpr hsep
  rw [splitOnSub]
  simp only [splitOnSubAux, h]
  rw [splitOnSub,
    splitOnSubAux_congr sep hsep s.length ((s.drop (i + sep.length)).length + 1) _
      (by rw [List.length_drop]; omega) (by omega)]

theorem splitOnSub_decomp {sep : List Char} (u v : List Char) (hov : NoSelfOverlap sep)
    (hsep : sep ≠ []) (hu : hasSub sep u = false) (hv : hasSub sep v = false) :
    splitOnSub sep (u ++ sep ++ v) = [u, v] := by
  rw [splitOnSub_of_some hsep (findSub_boundary u v hov hsep hu)]
  have htake : (u ++ sep ++ v).take u.length = u := by
    rw [List.append_assoc, List.take_left]
  have hdrop : (u ++ sep ++ v).drop (u.length + sep.length) = v := by
    rw [List.drop_left' (by simp)]
  rw [htake, hdrop, splitOnSub_of_none (findSub_none_of_hasSub_false hv)]

/-! ## Behaviour of the parser on well-structured input -/

theorem normalizeMinus_eq_self {l : List Char} (h : ∀ ch ∈ l, ch ≠ '−') :
    normalizeMinus l = l := by
  induction l with
  | nil => rfl
  | cons c t ih =>
    have hc : c ≠ '−' := h c (by simp)
    simp only [normalizeMinus, List.map_cons, if_neg hc]
    rw [show List.map (fun ch => if ch = '−' then '-' else ch) t = normalizeMinus t from rfl,
      ih (fun d hd => h d (by simp [hd]))]

theorem parseListing_structured (p a b c : List Char)
    (hTp : hasSub titleMarker p = false)
    (hTr : hasSub titleMarker (a ++ descriptionMarker ++ b ++ priceMarker ++ c) = false)
    (hDa : hasSub descriptionMarker a = false)
    (hDr : hasSub descriptionMarker (b ++ priceMarker ++ c) = false)
    (hPb : hasSub priceMarker b = false)
    (hPc : hasSub priceMarker c = false)
    (hM : ∀ ch ∈ p ++ titleMarker ++ a ++ descriptionMarker ++ b ++ priceMarker ++ c,
      ch ≠ '−') :
    parseListing (p ++ titleMarker ++ a ++ descriptionMarker ++ b ++ priceMarker ++ c) =
      some ⟨stripChars a, stripChars b, stripChars c,
        (pyWords (stripChars c)).filter (fun w => httpMarker.isPrefixOf w)⟩ := by
  have hsepT : titleMarker ≠ [] := by decide
  have hsepD : descriptionMarker ≠ [] := by decide
  have hsepP : priceMarker ≠ [] := by decide
  have hnorm := normalizeMinus_eq_self hM
  have split1 : splitOnSub titleMarker
      (p ++ titleMarker ++ a ++ descriptionMarker ++ b ++ priceMarker ++ c) =
      [p, a ++ descriptionMarker ++ b ++ priceMarker ++ c] := by
    have h := splitOnSub_decomp p (a ++ descriptionMarker ++ b ++ priceMarker ++ c)
      noSelfOverlap_title hsepT hTp hTr
    rw [show p ++ titleMarker ++ a ++ descriptionMarker ++ b ++ priceMarker ++ c
        = p ++ titleMarker ++ (a ++ descriptionMarker ++ b ++ priceMarker ++ c) by
      simp [List.append_assoc]]
    exact h
  have split2 : splitOnSub descriptionMarker
      (a ++ descriptionMarker ++ b ++ priceMarker ++ c) = [a, b ++ priceMarker ++ c] := by
    have h := splitOnSub_decomp a (b ++ priceMarker ++ c)
      noSelfOverlap_description hsepD hDa hDr
    rw [show a ++ descriptionMarker ++ b ++ priceMarker ++ c
        = a ++ descriptionMarker ++ (b ++ priceMarker ++ c) by simp [List.append_assoc]]
    exact h
  have split3 : splitOnSub priceMarker (b ++ priceMarker ++ c) = [b, c] :=
    splitOnSub_decomp b c noSelfOverlap_price hsepP hPb hPc
  have hT : hasSub titleMarker
      (p ++ titleMarker ++ a ++ descriptionMarker ++ b ++ priceMarker ++ c) = true :=
    hasSub_iff.mpr ⟨p, a ++ descriptionMarker ++ b ++ priceMarker ++ c,
      by simp [List.append_assoc]⟩
  have hD : hasSub descriptionMarker
      (p ++ titleMarker ++ a ++ descriptionMarker ++ b ++ priceMarker ++ c) = true :=
    hasSub_iff.mpr ⟨p ++ titleMarker ++ a, b ++ priceMarker ++ c,
      by simp [List.append_assoc]⟩
  have hP : hasSub priceMarker
      (p ++ titleMarker ++ a ++ descriptionMarker ++ b ++ priceMarker ++ c) = true :=
    hasSub_iff.mpr ⟨p ++ titleMarker ++ a ++ descriptionMarker ++ b, c,
      by simp [List.append_assoc]⟩
  simp only [parseListing, hnorm, hT, hD, hP, Bool.and_self, Bool.and_true, if_true,
    split1, split2, split3, List.getElem?_cons_succ, List.getElem?_cons_zero,
    List.getD_cons_zero, List.getD_cons_succ, List.length_cons, List.length_nil]
  rfl

theorem parseListing_fallback {l : List Char}
    (h : (hasSub titleMarker (normalizeMinus l) &&
          hasSub descriptionMarker (normalizeMinus l) &&
          hasSub priceMarker (normalizeMinus l)) = false) :
    parseListing l = some ⟨"Item".toList, normalizeMinus l, incompleteMsg, []⟩ := by
  simp only [parseListing, h, Bool.false_eq_true, if_false]

/-! ## Stripping lemmas -/

theorem length_dropWhile_le' (p : Char → Bool) (l : List Char) :
    (l.dropWhile p).length ≤ l.length := by
  induction l with
  | nil => simp
  | cons c t ih =>
    by_cases hc : p c
    · rw [List.dropWhile_cons_of_pos hc]
      simp only [List.length_cons]
      omega
    · rw [List.dropWhile_cons_of_neg hc]

theorem dropWhile_eq_self_of_length {p : Char → Bool} {l : List Char}
    (h : (l.dropWhile p).length = l.length) : l.dropWhile p = l := by
  cases l with
  | nil => rfl
  | cons c t =>
    by_cases hc : p c
    · rw [List.dropWhile_cons_of_pos hc] at h ⊢
      have := length_dropWhile_le' p t
      simp only [List.length_cons] at h
      omega
    · rw [List.dropWhile_cons_of_neg hc]

theorem stripChars_eq_self_parts {l : List Char} (h : stripChars l = l) :
    l.dropWhile isPySpace = l ∧ l.reverse.dropWhile isPySpace = l.reverse := by
  have hlen := congrArg List.length h
  rw [stripChars, List.length_reverse] at hlen
  have h1 := length_dropWhile_le' isPySpace l
  have h2 := length_dropWhile_le' isPySpace (l.dropWhile isPySpace).reverse
  rw [List.length_reverse] at h2
  have hd : l.dropWhile isPySpace = l :=
    dropWhile_eq_self_of_length (by omega)
  refine ⟨hd, ?_⟩
  rw [hd] at hlen h2
  exact dropWhile_eq_self_of_length (by rw [List.length_reverse]; omega)

theorem stripChars_cons_space (l : List Char) :
    stripChars (' ' :: l) = stripChars l := by
  rw [stripChars, stripChars, List.dropWhile_cons_of_pos (by decide)]

theorem sp_false_of_self {c : Char} {t : List Char}
    (h : (c :: t).dropWhile isPySpace = c :: t) : isPySpace c = false := by
  by_contra hc
  rw [Bool.not_eq_false] at hc
  rw [List.dropWhile_cons_of_pos hc] at h
  have := congrArg List.length h
  have hle := length_dropWhile_le' isPySpace t
  simp only [List.length_cons] at this
  omega

theorem stripChars_pad_nl {l : List Char} (h : stripChars l = l) :
    stripChars (' ' :: (l ++ ['\n'])) = l := by
  obtain ⟨h1, h2⟩ := stripChars_eq_self_parts h
  rw [stripChars_cons_space]
  cases l with
  | nil => decide
  | cons c t =>
    have hc := sp_false_of_self h1
    rw [stripChars, List.cons_append, List.dropWhile_cons_of_neg (by simp [hc]),
      show (c :: (t ++ ['\n'])).reverse = '\n' :: (c :: t).reverse by simp,
      List.dropWhile_cons_of_pos (by decide), h2, List.reverse_reverse]

theorem stripChars_pad_space {l : List Char} (h : stripChars l = l) :
    stripChars (' ' :: l) = l := by
  rw [stripChars_cons_space, h]

/-! ## Containment across glue characters -/

theorem hasSub_append_cons_elim {sep u v : List Char} {c : Char} (hc : c ∉ sep)
    (hsep : sep ≠ []) (h : hasSub sep (u ++ c :: v) = true) :
    hasSub sep u = true ∨ hasSub sep v = true := by
  obtain ⟨x, y, hxy⟩ := hasSub_iff.mp h
  rw [List.append_assoc] at hxy
  rcases List.append_eq_append_iff.mp hxy with ⟨e, he, hev⟩ | ⟨e, he, hev⟩
  · -- x = u ++ e and c :: v = e ++ (sep ++ y)
    cases e with
    | nil =>
      rw [List.nil_append] at hev
      cases sep with
      | nil => exact absurd rfl hsep
      | cons s0 sep' =>
        rw [List.cons_append, List.cons.injEq] at hev
        exact absurd (hev.1 ▸ List.mem_cons_self s0 sep') hc
    | cons e0 e' =>
      rw [List.cons_append, List.cons.injEq] at hev
      exact Or.inr (hasSub_iff.mpr ⟨e', y, by rw [hev.2, List.append_assoc]⟩)
  · -- u = x ++ e and sep ++ y = e ++ c :: v
    rcases List.append_eq_append_iff.mp hev with ⟨f, hf, -⟩ | ⟨f, hf, hcv⟩
    · -- e = sep ++ f
      exact Or.inl (hasSub_iff.mpr ⟨x, f, by rw [he, hf, List.append_assoc]⟩)
    · -- sep = e ++ f and c :: v = f ++ (rest)
      cases f with
      | nil =>
        rw [List.append_nil] at hf
        exact Or.inl (hasSub_iff.mpr ⟨x, [], by rw [he, hf, List.append_nil]⟩)
      | cons f0 f' =>
        rw [List.cons_append, List.cons.injEq] at hcv
        exact absurd (hf ▸ (List.mem_append.mpr (Or.inr (hcv.1 ▸
          List.mem_cons_self f0 f')))) hc

theorem hasSub_append_cons_false {sep u v : List Char} {c : Char} (hc : c ∉ sep)
    (hsep : sep ≠ []) (hu : hasSub sep u = false) (hv : hasSub sep v = false) :
    hasSub sep (u ++ c :: v) = false := by
  rw [Bool.eq_false_iff]
  intro h
  rcases hasSub_append_cons_elim hc hsep h with h' | h' <;> simp_all

theorem hasSub_cons_false {sep v : List Char} {c : Char} (hc : c ∉ sep)
    (hsep : sep ≠ []) (hv : hasSub sep v = false) :
    hasSub sep (c :: v) = false :=
  hasSub_append_cons_false hc hsep (hasSub_nil_eq_false hsep) hv

/-! ## Character provenance of parser outputs -/

theorem mem_of_dropWhile {p : Char → Bool} {l : List Char} {c : Char}
    (h : c ∈ l.dropWhile p) : c ∈ l := by
  induction l with
  | nil => simp at h
  | cons d t ih =>
    by_cases hd : p d
    · rw [List.dropWhile_cons_of_pos hd] at h
      exact List.mem_cons_of_mem d (ih h)
    · rw [List.dropWhile_cons_of_neg hd] at h
      exact h

theorem mem_of_stripChars {l : List Char} {c : Char} (h : c ∈ stripChars l) : c ∈ l := by
  rw [stripChars, List.mem_reverse] at h
  have h1 := mem_of_dropWhile h
  rw [List.mem_reverse] at h1
  exact mem_of_dropWhile h1

theorem mem_of_splitOnSubAux {sep : List Char} :
    ∀ (fuel : Nat) (s w : List Char), w ∈ splitOnSubAux sep fuel s →
      ∀ c ∈ w, c ∈ s := by
  intro fuel
  induction fuel with
  | zero =>
    intro s w hw c hc
    simp only [splitOnSubAux, List.mem_singleton] at hw
    exact hw ▸ hc
  | succ f ih =>
    intro s w hw c hc
    simp only [splitOnSubAux] at hw
    rcases hfs : findSub sep s with _ | i
    · rw [hfs] at hw
      simp only [List.mem_singleton] at hw
      exact hw ▸ hc
    · rw [hfs] at hw
      simp only [List.mem_cons] at hw
      rcases hw with rfl | hw
      · exact List.take_subset i s hc
      · exact List.drop_subset _ s (ih _ w hw c hc)

theorem mem_of_splitOnSub {sep s w : List Char} (hw : w ∈ splitOnSub sep s) :
    ∀ c ∈ w, c ∈ s :=
  mem_of_splitOnSubAux (s.length + 1) s w hw

theorem mem_of_pyWordsAux :
    ∀ (l acc w : List Char), w ∈ pyWordsAux l acc → ∀ c ∈ w, c ∈ l ∨ c ∈ acc := by
  intro l
  induction l with
  | nil =>
    intro acc w hw c hc
    cases acc with
    | nil => simp [pyWordsAux] at hw
    | cons a t =>
      simp only [pyWordsAux, List.mem_singleton] at hw
      subst hw
      exact Or.inr (List.mem_reverse.mp hc)
  | cons d t ih =>
    intro acc w hw c hc
    by_cases hd : isPySpace d
    · cases acc with
      | nil =>
        simp only [pyWordsAux, if_pos hd] at hw
        rcases ih [] w hw c hc with h | h
        · exact Or.inl (List.mem_cons_of_mem d h)
        · simp at h
      | cons a t' =>
        simp only [pyWordsAux, if_pos hd, List.mem_cons] at hw
        rcases hw with rfl | hw
        · exact Or.inr (List.mem_reverse.mp hc)
        · rcases ih [] w hw c hc with h | h
          · exact Or.inl (List.mem_cons_of_mem d h)
          · simp at h
    · have hw' : w ∈ pyWordsAux t (d :: acc) := by
        cases acc <;> simpa [pyWordsAux, if_neg hd] using hw
      rcases ih (d :: acc) w hw' c hc with h | h
      · exact Or.inl (List.mem_cons_of_mem d h)
      · rcases List.mem_cons.mp h with rfl | h
        · exact Or.inl (List.mem_cons_self c t)
        · exact Or.inr h

theorem mem_of_pyWords {l w : List Char} (hw : w ∈ pyWords l) : ∀ c ∈ w, c ∈ l := by
  intro c hc
  rcases mem_of_pyWordsAux l [] w hw c hc with h | h
  · exact h
  · simp at h

theorem ne_minus_of_mem_normalizeMinus {l : List Char} {c : Char}
    (h : c ∈ normalizeMinus l) : c ≠ '−' := by
  rw [normalizeMinus, List.mem_map] at h
  obtain ⟨d, -, hd⟩ := h
  by_cases hdm : d = '−'
  · rw [if_pos hdm] at hd
    rw [← hd]
    decide
  · rw [if_neg hdm] at hd
    exact hd ▸ hdm

theorem normalizeMinus_eq_marker {m M : List Char} (hM : ∀ ch ∈ M, ch ≠ '-')
    (h : normalizeMinus m = M) : m = M := by
  induction m generalizing M with
  | nil => simpa [normalizeMinus] using h
  | cons c t ih =>
    rw [normalizeMinus, List.map_cons] at h
    cases M with
    | nil => simp at h
    | cons d M' =>
      rw [List.cons.injEq] at h
      obtain ⟨h1, h2⟩ := h
      have hd : d ≠ '-' := hM d (List.mem_cons_self d M')
      have hc : c = d := by
        by_cases hcm : c = '−'
        · rw [if_pos hcm] at h1
          exact absurd h1.symm hd
        · rw [if_neg hcm] at h1
          exact h1
      rw [hc, ih (fun ch hch => hM ch (List.mem_cons_of_mem d hch))
        (by rw [normalizeMinus]; exact h2)]

theorem normalizeMinus_frame {u M v : List Char} (hM : ∀ ch ∈ M, ch ≠ '−') :
    normalizeMinus (u ++ M ++ v) = normalizeMinus u ++ M ++ normalizeMinus v := by
  rw [normalizeMinus, List.map_append, List.map_append]
  rw [show (M.map fun c => if c = '−' then '-' else c) = normalizeMinus M from rfl,
    normalizeMinus_eq_self hM]
  rfl

theorem hasSub_normalizeMinus {M l : List Char}
    (hM1 : ∀ ch ∈ M, ch ≠ '−') (hM2 : ∀ ch ∈ M, ch ≠ '-') :
    hasSub M (normalizeMinus l) = hasSub M l := by
  cases h : hasSub M l with
  | false =>
    rw [Bool.eq_false_iff]
    intro hn
    obtain ⟨u, v, huv⟩ := hasSub_iff.mp hn
    rw [List.append_assoc, normalizeMinus] at huv
    obtain ⟨l1, l2, rfl, -, hl2⟩ := List.map_eq_append_iff.mp huv
    obtain ⟨l3, l4, rfl, hl3, -⟩ := List.map_eq_append_iff.mp hl2
    have h3 : l3 = M :=
      normalizeMinus_eq_marker hM2 (by rw [normalizeMinus]; exact hl3)
    rw [hasSub_iff.mpr ⟨l1, l4, by rw [h3, List.append_assoc]⟩] at h
    exact Bool.true_eq_false.mp h
  | true =>
    obtain ⟨u, v, rfl⟩ := hasSub_iff.mp h
    rw [normalizeMinus_frame hM1, hasSub_decomp]

theorem minusFreeListing_some {r : ParsedListing}
    (h1 : ∀ c ∈ r.item_name, c ≠ '−') (h2 : ∀ c ∈ r.description, c ≠ '−')
    (h3 : ∀ c ∈ r.price_suggestion, c ≠ '−')
    (h4 : ∀ w ∈ r.links, ∀ c ∈ w, c ≠ '−') :
    minusFreeListing (some r) = true := by
  simp only [minusFreeListing, Bool.and_eq_true, List.all_eq_true, decide_eq_true_eq]
  exact ⟨⟨⟨h1, h2⟩, h3⟩, h4⟩

theorem exists_of_mem_getD_zero {L : List (List Char)} {c : Char}
    (h : c ∈ L.getD 0 []) : ∃ w ∈ L, c ∈ w := by
  cases L with
  | nil => simp [List.getD] at h
  | cons a t =>
    refine ⟨a, List.mem_cons_self a t, ?_⟩
    simpa [List.getD] using h

theorem exists_of_mem_getD_one {L : List (List Char)} {c : Char}
    (h : c ∈ L.getD 1 []) : ∃ w ∈ L, c ∈ w := by
  match L with
  | [] => simp [List.getD] at h
  | [a] => simp [List.getD] at h
  | a :: b :: t =>
    refine ⟨b, by simp, ?_⟩
    simpa [List.getD] using h

/-! ## Availability lemmas -/

theorem entry_ne_empty (d s : String) : d ++ ": " ++ s ≠ "" := by
  intro h
  have hlen := congrArg String.length h
  rw [String.length_append, String.length_append] at hlen
  have h2 : (": ").length = 2 := rfl
  have h0 : ("").length = 0 := rfl
  omega

theorem pyJoin_ne_empty {es : List String} (hne : ∀ e ∈ es, e ≠ "") (h : es ≠ []) :
    pyJoin "; " es ≠ "" := by
  cases es with
  | nil => exact absurd rfl h
  | cons x xs =>
    cases xs with
    | nil => exact hne x (by simp)
    | cons y t =>
      show x ++ "; " ++ pyJoin "; " (y :: t) ≠ ""
      intro hc
      have hlen := congrArg String.length hc
      rw [String.length_append, String.length_append] at hlen
      have h2 : ("; ").length = 2 := rfl
      have h0 : ("").length = 0 := rfl
      omega

theorem availDictAux_entries (w : String → DayAvail) :
    ∀ ds : List String,
      (availDictAux w ds).map (fun p => p.1 ++ ": " ++ p.2) =
        (ds.filter (fun d => !(daySlots (w d)).isEmpty)).map
          (fun d => d ++ ": " ++ pyJoin ", " (daySlots (w d))) := by
  intro ds
  induction ds with
  | nil => rfl
  | cons d ds ih =>
    by_cases h : daySlots (w d) = []
    · simp [availDictAux, List.filter_cons, List.isEmpty_iff, h, ih]
    · simp [availDictAux, List.filter_cons, List.isEmpty_iff, h, ih]

theorem availDictAux_fst (w : String → DayAvail) :
    ∀ ds : List String,
      (availDictAux w ds).map Prod.fst =
        ds.filter (fun d => !(daySlots (w d)).isEmpty) := by
  intro ds
  induction ds with
  | nil => rfl
  | cons d ds ih =>
    by_cases h : daySlots (w d) = []
    · simp [availDictAux, List.filter_cons, List.isEmpty_iff, h, ih]
    · simp [availDictAux, List.filter_cons, List.isEmpty_iff, h, ih]

theorem daySlots_ne_nil_of_custom {a : DayAvail} (h : a.custom ≠ "") :
    daySlots a ≠ [] := by
  intro hc
  simp [daySlots, h] at hc

theorem availability_str_eq_spec (w : String → DayAvail) :
    availability_str w = availabilitySpec w := by
  rw [availability_str, availabilitySpec, availability_dict, availDictAux_entries w weekDays]
  cases hselc : weekDays.filter (fun d => !(daySlots (w d)).isEmpty) with
  | nil => simp [pyJoin]
  | cons s t =>
    have hne : pyJoin "; "
        ((s :: t).map (fun d => d ++ ": " ++ pyJoin ", " (daySlots (w d)))) ≠ "" := by
      apply pyJoin_ne_empty
      · intro e he
        simp only [List.mem_map] at he
        obtain ⟨d, -, rfl⟩ := he
        exact entry_ne_empty d (pyJoin ", " (daySlots (w d)))
      · simp
    rw [if_neg hne]
    simp

/-! ## Base64 roundtrip -/

theorem decodeB64Char_encodeB64Char : ∀ n, n < 64 → decodeB64Char (encodeB64Char n) = n := by
  decide

theorem encodeB64Char_ne_pad : ∀ n, n < 64 → encodeB64Char n ≠ '=' := by
  decide

theorem b64decode_b64encode :
    ∀ l : List Nat, (∀ b ∈ l, b < 256) → b64decode (b64encode l) = l := by
  intro l
  induction l using b64encode.induct with
  | case1 a b c rest ih =>
    intro hb
    have ha256 : a < 256 := hb a (by simp)
    have hb256 : b < 256 := hb b (by simp)
    have hc256 : c < 256 := hb c (by simp)
    have h3ne : encodeB64Char (b % 16 * 4 + c / 64) ≠ '=' :=
      encodeB64Char_ne_pad _ (by omega)
    have h4ne : encodeB64Char (c % 64) ≠ '=' :=
      encodeB64Char_ne_pad _ (by omega)
    rw [b64encode, b64decode,
      if_neg (by rintro ⟨hx, -, -⟩; exact h3ne hx),
      if_neg (by rintro ⟨hx, -⟩; exact h4ne hx),
      ih (fun x hx => hb x (by simp [hx]))]
    rw [decodeB64Char_encodeB64Char _ (by omega), decodeB64Char_encodeB64Char _ (by omega),
      decodeB64Char_encodeB64Char _ (by omega), decodeB64Char_encodeB64Char _ (by omega)]
    have e1 : a / 4 * 4 + (a % 4 * 16 + b / 16) / 16 = a := by omega
    have e2 : (a % 4 * 16 + b / 16) % 16 * 16 + (b % 16 * 4 + c / 64) / 4 = b := by omega
    have e3 : (b % 16 * 4 + c / 64) % 4 * 64 + c % 64 = c := by omega
    rw [e1, e2, e3]
  | case2 a b =>
    intro hb
    have ha256 : a < 256 := hb a (by simp)
    have hb256 : b < 256 := hb b (by simp)
    have h3ne : encodeB64Char (b % 16 * 4) ≠ '=' :=
      encodeB64Char_ne_pad _ (by omega)
    rw [b64encode, b64decode, if_neg (by rintro ⟨hx, -, -⟩; exact h3ne hx),
      if_pos ⟨rfl, rfl⟩]
    rw [decodeB64Char_encodeB64Char _ (by omega), decodeB64Char_encodeB64Char _ (by omega),
      decodeB64Char_encodeB64Char _ (by omega)]
    have e1 : a / 4 * 4 + (a % 4 * 16 + b / 16) / 16 = a := by omega
    have e2 : (a % 4 * 16 + b / 16) % 16 * 16 + b % 16 * 4 / 4 = b := by omega
    rw [e1, e2]
  | case3 a =>
    intro hb
    have ha256 : a < 256 := hb a (by simp)
    rw [b64encode, b64decode, if_pos ⟨rfl, rfl, rfl⟩]
    rw [decodeB64Char_encodeB64Char _ (by omega), decodeB64Char_encodeB64Char _ (by omega)]
    have e1 : a / 4 * 4 + a % 4 * 16 / 16 = a := by omega
    rw [e1]
  | case4 => intro hb; rfl

/-! ## Model client lemmas -/

theorem errorString_starts_with_error (d : String) :
    "Error:".toList.isPrefixOf (errorString d).toList = true := by
  obtain ⟨dl⟩ := d
  rfl

theorem dataUri_toList_drop (s : String) :
    (dataUri s).toList.drop 23 = s.toList := by
  obtain ⟨sl⟩ := s
  rfl

theorem encode_image_toList (bytes : List Nat) :
    (encode_image bytes).toList = b64encode bytes := rfl

/-! ## Claim theorems -/

/-- C7: for every prompt, image list and search flag, the payload built by
the model client has the fixed model name, temperature 7/10 (the literal
0.7), max_tokens 300, exactly one message, and carries search_parameters
with mode "on" exactly when use_search is true. -/
theorem payload_fixed_fields (prompt : String) (images : List (List Nat))
    (use_search : Bool) :
    (buildPayload prompt images use_search).model = "grok-4-1-fast-non-reasoning" ∧
    (buildPayload prompt images use_search).temperature = 7 / 10 ∧
    (buildPayload prompt images use_search).max_tokens = 300 ∧
    (buildPayload prompt images use_search).messages.length = 1 ∧
    ((buildPayload prompt images use_search).search_parameters = some ⟨"on"⟩ ↔
      use_search = true) := by
  refine ⟨rfl, rfl, rfl, ?_, ?_⟩
  · show (call_grok_messages prompt images).length = 1
    rw [call_grok_messages]
    split <;> rfl
  · cases use_search
    · simp [buildPayload]
    · simp [buildPayload]

/-- C4 (amended): the model client is a total function of the remote
behaviour — it never raises; on a transport error, a 4xx/5xx status, or a
body from which no content can be extracted, it returns a string beginning
with "Error:"; on any non-raising response with a well-formed body
(in particular every 2xx success) it returns choices[0].message.content.
As literally stated ("any non-2xx status") the claim fails: a 3xx response
with a parseable body is passed through, see the counterexample. -/
theorem call_grok_never_raises (post : GrokPayload → HttpOutcome) (prompt : String)
    (images : List (List Nat)) (use_search : Bool) :
    (isFailure (post (buildPayload prompt images use_search)) = true →
      "Error:".toList.isPrefixOf (call_grok post prompt images use_search).toList = true) ∧
    (∀ status content,
      post (buildPayload prompt images use_search) = .response status (.ok content) →
      raisesForStatus status = false →
      call_grok post prompt images use_search = content) := by
  constructor
  · intro hf
    cases hp : post (buildPayload prompt images use_search) with
    | netError m =>
      simp only [call_grok, hp]
      exact errorString_starts_with_error m
    | response status body =>
      rw [hp] at hf
      simp only [isFailure] at hf
      by_cases hs : raisesForStatus status = true
      · simp only [call_grok, hp, if_pos hs]
        exact errorString_starts_with_error _
      · rw [Bool.not_eq_true] at hs
        simp only [call_grok, hp, hs, Bool.false_eq_true, if_false]
        cases body with
        | error m => exact errorString_starts_with_error m
        | ok content =>
          rw [hs, Bool.false_or] at hf
          simp at hf
  · intro status content hp hs
    simp only [call_grok, hp, hs, Bool.false_eq_true, if_false]

theorem call_grok_never_raises_witness :
    "Error:".toList.isPrefixOf (call_grok postNetError "p" [] false).toList = true ∧
    call_grok postOk200 "p" [] true = "Title: X" :=
  ⟨(call_grok_never_raises postNetError "p" [] false).1 (by decide),
   (call_grok_never_raises postOk200 "p" [] true).2 200 "Title: X" rfl (by decide)⟩

/-- C4 counterexample: a 304 response (non-2xx) whose body still yields a
content string is returned as-is by call_grok, with no "Error:" prefix, so
"any non-2xx status produces an Error: string" is false of the code. -/
theorem call_grok_non2xx_passthrough_cex :
    call_grok postOk304 "p" [] false = "cached content" ∧
    "Error:".toList.isPrefixOf "cached content".toList = false := by
  exact ⟨by decide, by decide⟩

/-- C6: with a non-empty image list (of byte values) the single message's
content is one text part holding the prompt followed by one image part per
image in upload order — 1 + N parts in total — and the base64 payload of
each image part (the data URI after its fixed 23-character prefix) decodes
back to the original bytes. -/
theorem call_grok_messages_parts (prompt : String) (images : List (List Nat))
    (hne : images ≠ []) (hbytes : ∀ img ∈ images, ∀ b ∈ img, b < 256) :
    call_grok_messages prompt images =
      [⟨"user", MsgContent.parts (ContentPart.text prompt ::
        images.map (fun img => ContentPart.image_url (dataUri (encode_image img))))⟩] ∧
    (ContentPart.text prompt ::
      images.map (fun img => ContentPart.image_url (dataUri (encode_image img)))).length =
        1 + images.length ∧
    ∀ img ∈ images, b64decode ((dataUri (encode_image img)).toList.drop 23) = img := by
  refine ⟨?_, ?_, ?_⟩
  · rw [call_grok_messages, if_neg (by simp [List.isEmpty_iff, hne])]
  · simp [Nat.add_comm]
  · intro img himg
    rw [dataUri_toList_drop, encode_image_toList, b64decode_b64encode img (hbytes img himg)]

theorem call_grok_messages_parts_witness :
    b64decode ((dataUri (encode_image [0, 255, 17])).toList.drop 23) = [0, 255, 17] :=
  (call_grok_messages_parts "p" [[0, 255, 17], [77]] (by decide) (by decide)).2.2
    [0, 255, 17] (by decide)

/-- C5: for every assignment of the 7 weekdays' three booleans and custom
text, the availability string built by the code equals the spec-worded
construction (per-day labels in the fixed order joined with ", ", selected
days as "day: labels" joined with "; ", fixed fallback when no day is
selected); in particular the all-false/empty input yields the fallback and
Monday morning with custom "4pm" yields "Monday: Morning, Custom: 4pm". -/
theorem availability_str_correct :
    (∀ w : String → DayAvail, availability_str w = availabilitySpec w) ∧
    availability_str allOffWeek = "No specific availability set" ∧
    availability_str mondayMorningCustomWeek = "Monday: Morning, Custom: 4pm" :=
  ⟨availability_str_eq_spec, by decide, by decide⟩

/-- C10: the days appearing in the availability dict are always in fixed
week order (its first components form a sublist of the weekday list), a
non-empty custom text alone suffices for a day to appear, and the summary
string is exactly the "; "-join of those entries in that order (or the
fixed fallback when no day is selected). -/
theorem availability_days_in_week_order (w : String → DayAvail) :
    ((availability_dict w).map Prod.fst).Sublist weekDays ∧
    (∀ d ∈ weekDays, (w d).custom ≠ "" → d ∈ (availability_dict w).map Prod.fst) ∧
    availability_str w =
      (if (availability_dict w).isEmpty then "No specific availability set"
       else pyJoin "; " ((availability_dict w).map (fun p => p.1 ++ ": " ++ p.2))) := by
  refine ⟨?_, ?_, ?_⟩
  · rw [availability_dict, availDictAux_fst]
    exact List.filter_sublist weekDays
  · intro d hd hc
    rw [availability_dict, availDictAux_fst]
    refine List.mem_filter.mpr ⟨hd, ?_⟩
    simp [List.isEmpty_iff, daySlots_ne_nil_of_custom hc]
  · simp only [availability_str]
    cases hdict : availability_dict w with
    | nil => simp [pyJoin]
    | cons e es =>
      have hne : pyJoin "; " ((e :: es).map (fun p => p.1 ++ ": " ++ p.2)) ≠ "" := by
        apply pyJoin_ne_empty
        · intro x hx
          simp only [List.mem_map] at hx
          obtain ⟨pq, -, rfl⟩ := hx
          exact entry_ne_empty pq.1 pq.2
        · simp
      rw [if_neg hne]
      simp

theorem availability_days_in_week_order_witness :
    ((availability_dict mondayMorningCustomWeek).map Prod.fst).Sublist weekDays ∧
    "Monday" ∈ (availability_dict mondayMorningCustomWeek).map Prod.fst :=
  ⟨(availability_days_in_week_order mondayMorningCustomWeek).1,
   (availability_days_in_week_order mondayMorningCustomWeek).2.1 "Monday"
     (by decide) (by decide)⟩

/-- C1 counterexample: on an input with a second "Title:" occurrence after
the price text, Python's split-and-index truncates the price at that
occurrence ("C") rather than returning the whole trimmed remainder after
"Price:" ("C Title: D"), so the claim as stated is false. -/
theorem parseListing_truncates_at_repeated_marker :
    (parseListing "Title: A\nDescription: B\nPrice: C Title: D".toList).map
        ParsedListing.price_suggestion = some "C".toList ∧
    stripChars " C Title: D".toList = "C Title: D".toList ∧
    "C".toList ≠ "C Title: D".toList := by
  refine ⟨?_, ?_, ?_⟩ <;> decide

/-- C1 (amended): for every input decomposing as p + "Title:" + a +
"Description:" + b + "Price:" + c where "Title:" occurs in neither p nor
the remainder, "Description:" occurs in neither a nor the remainder,
"Price:" occurs in neither b nor c, and no '−' occurs anywhere, the parser
returns the trimmed a, b, c as title, description and price, and the
whitespace tokens of the trimmed price text that start with "http", in
original order and without deduplication, as links.  (The unamended claim
fails when a marker recurs later in the input: the splits then truncate at
the second occurrence, see the counterexample.) -/
theorem parseListing_unique_ordered_markers (p a b c : List Char)
    (hTp : hasSub titleMarker p = false)
    (hTr : hasSub titleMarker (a ++ descriptionMarker ++ b ++ priceMarker ++ c) = false)
    (hDa : hasSub descriptionMarker a = false)
    (hDr : hasSub descriptionMarker (b ++ priceMarker ++ c) = false)
    (hPb : hasSub priceMarker b = false)
    (hPc : hasSub priceMarker c = false)
    (hM : ∀ ch ∈ p ++ titleMarker ++ a ++ descriptionMarker ++ b ++ priceMarker ++ c,
      ch ≠ '−') :
    parseListing (p ++ titleMarker ++ a ++ descriptionMarker ++ b ++ priceMarker ++ c) =
      some ⟨stripChars a, stripChars b, stripChars c,
        (pyWords (stripChars c)).filter (fun w => httpMarker.isPrefixOf w)⟩ :=
  parseListing_structured p a b c hTp hTr hDa hDr hPb hPc hM

theorem parseListing_unique_ordered_markers_witness :
    parseListing "Title: Graco Seat\nDescription: Nice\nPrice: $40 https://ebay.com/x".toList =
      some ⟨"Graco Seat".toList, "Nice".toList, "$40 https://ebay.com/x".toList,
        ["https://ebay.com/x".toList]⟩ := by
  have h := parseListing_unique_ordered_markers [] " Graco Seat\n".toList " Nice\n".toList
    " $40 https://ebay.com/x".toList (by decide) (by decide) (by decide) (by decide)
    (by decide) (by decide) (by decide)
  exact h

/-- C2 counterexample: on marker-less input containing the non-ASCII minus
'−', the fallback description is the normalized text (with '-'), not the
full input text unchanged, so the claim as stated is false. -/
theorem parseListing_fallback_normalizes_cex :
    parseListing "condition: −good".toList =
      some ⟨"Item".toList, "condition: -good".toList, incompleteMsg, []⟩ ∧
    "condition: -good".toList ≠ "condition: −good".toList := by
  exact ⟨by decide, by decide⟩

/-- C2 (amended): whenever at least one of the three markers is absent from
the input, the parser returns title "Item", the input text with every '−'
replaced by '-' as description (equal to the input text exactly when it
contains no '−'), the fixed incomplete-response error string as price, and
an empty links list.  (The unamended "description = full input text
unchanged" fails on inputs containing '−', see the counterexample.) -/
theorem parseListing_missing_marker (l : List Char)
    (h : ¬(hasSub titleMarker l = true ∧ hasSub descriptionMarker l = true ∧
        hasSub priceMarker l = true)) :
    parseListing l = some ⟨"Item".toList, normalizeMinus l, incompleteMsg, []⟩ := by
  apply parseListing_fallback
  rw [@hasSub_normalizeMinus titleMarker l (by decide) (by decide),
    @hasSub_normalizeMinus descriptionMarker l (by decide) (by decide),
    @hasSub_normalizeMinus priceMarker l (by decide) (by decide)]
  cases h1 : hasSub titleMarker l <;> cases h2 : hasSub descriptionMarker l <;>
    cases h3 : hasSub priceMarker l <;> simp_all

theorem parseListing_missing_marker_witness :
    parseListing "hello world".toList =
      some ⟨"Item".toList, "hello world".toList, incompleteMsg, []⟩ := by
  have h := parseListing_missing_marker "hello world".toList (by decide)
  exact h

/-- C8: there is an input passing the outer all-three-markers check from
which "Price:" is nevertheless absent after the "Description:" split (the
markers occur out of order), and the parser then returns exactly the
"Error: No price info" string as the price section. -/
theorem parseListing_no_price_branch :
    ∃ l : List Char,
      hasSub titleMarker (normalizeMinus l) = true ∧
      hasSub descriptionMarker (normalizeMinus l) = true ∧
      hasSub priceMarker (normalizeMinus l) = true ∧
      hasSub priceMarker
        ((splitOnSub descriptionMarker
          ((splitOnSub titleMarker (normalizeMinus l)).getD 1 [])).getD 1 []) = false ∧
      (parseListing l).map ParsedListing.price_suggestion = some noPriceInfoMsg := by
  refine ⟨"Price: A Title: B Description: C".toList, ?_, ?_, ?_, ?_, ?_⟩ <;> decide

/-- C9: for every raw input, every output field of the parser — title,
description, price suggestion and each link — is free of the non-ASCII
minus '−': the replace normalization runs before both branches, so even the
fallback description is the normalized text. -/
theorem parseListing_outputs_minus_free (l : List Char) :
    minusFreeListing (parseListing l) = true := by
  have hxfree : ∀ c ∈ normalizeMinus l, c ≠ '−' :=
    fun c hc => ne_minus_of_mem_normalizeMinus hc
  simp only [parseListing]
  split
  · split
    · rfl
    · rename_i afterTitle h1
      split
      · rfl
      · rename_i afterDescription h2
        have hA : ∀ c ∈ afterTitle, c ∈ normalizeMinus l :=
          fun c hc => mem_of_splitOnSub (List.getElem?_mem h1) c hc
        have hAD : ∀ c ∈ afterDescription, c ∈ normalizeMinus l :=
          fun c hc => hA _ (mem_of_splitOnSub (List.getElem?_mem h2) c hc)
        have hitem : ∀ c ∈ stripChars
            ((splitOnSub descriptionMarker afterTitle).getD 0 []), c ≠ '−' := by
          intro c hc
          obtain ⟨w, hw, hcw⟩ := exists_of_mem_getD_zero (mem_of_stripChars hc)
          exact hxfree c (hA c (mem_of_splitOnSub hw c hcw))
        have hdesc : ∀ c ∈ stripChars
            ((splitOnSub priceMarker afterDescription).getD 0 []), c ≠ '−' := by
          intro c hc
          obtain ⟨w, hw, hcw⟩ := exists_of_mem_getD_zero (mem_of_stripChars hc)
          exact hxfree c (hAD c (mem_of_splitOnSub hw c hcw))
        split
        · rename_i hlen
          have hprice : ∀ c ∈ stripChars
              ((splitOnSub priceMarker afterDescription).getD 1 []), c ≠ '−' := by
            intro c hc
            obtain ⟨w, hw, hcw⟩ := exists_of_mem_getD_one (mem_of_stripChars hc)
            exact hxfree c (hAD c (mem_of_splitOnSub hw c hcw))
          refine minusFreeListing_some hitem hdesc hprice ?_
          intro w hw c hc
          exact hprice c (mem_of_pyWords (List.mem_of_mem_filter hw) c hc)
        · have hprice : ∀ c ∈ noPriceInfoMsg, c ≠ '−' := by decide
          refine minusFreeListing_some hitem hdesc hprice ?_
          intro w hw c hc
          exact hprice c (mem_of_pyWords (List.mem_of_mem_filter hw) c hc)
  · refine minusFreeListing_some ?_ hxfree ?_ ?_
    · exact (by decide : ∀ c ∈ "Item".toList, c ≠ '−')
    · exact (by decide : ∀ c ∈ incompleteMsg, c ≠ '−')
    · intro w hw
      simp at hw

/-- C3 counterexample: with X = "A " (trailing space, marker-free) the
reconstruction parses back to the stripped "A", not X, so the claimed left
inverse fails for segments with surrounding whitespace. -/
theorem parseListing_reconstruct_strips_cex :
    (parseListing (reconstructListing "A ".toList "B".toList "C".toList)).map
        ParsedListing.item_name = some "A".toList ∧
    markerFree "A ".toList = true ∧
    "A".toList ≠ "A ".toList := by
  refine ⟨?_, ?_, ?_⟩ <;> decide

/-- C3 (amended): for X, Y, Z free of the three marker substrings and of
'−', invariant under stripping (no leading or trailing whitespace), and
with no "http"-prefixed token in Z, parsing the reconstructed
"Title: X\nDescription: Y\nPrice: Z" yields exactly title X, description Y,
price Z and no links.  (The unamended claim fails for segments with
surrounding whitespace, which the parser strips: see the counterexample.) -/
theorem parseListing_reconstruct (X Y Z : List Char)
    (hX : markerFree X = true) (hY : markerFree Y = true) (hZ : markerFree Z = true)
    (hsX : stripChars X = X) (hsY : stripChars Y = Y) (hsZ : stripChars Z = Z)
    (hmX : ∀ ch ∈ X, ch ≠ '−') (hmY : ∀ ch ∈ Y, ch ≠ '−') (hmZ : ∀ ch ∈ Z, ch ≠ '−')
    (hlinks : (pyWords Z).filter (fun w => httpMarker.isPrefixOf w) = []) :
    parseListing (reconstructListing X Y Z) = some ⟨X, Y, Z, []⟩ := by
  obtain ⟨⟨hTX, hDX⟩, hPX⟩ :
      (hasSub titleMarker X = false ∧ hasSub descriptionMarker X = false) ∧
        hasSub priceMarker X = false := by
    simpa [markerFree] using hX
  obtain ⟨⟨hTY, hDY⟩, hPY⟩ :
      (hasSub titleMarker Y = false ∧ hasSub descriptionMarker Y = false) ∧
        hasSub priceMarker Y = false := by
    simpa [markerFree] using hY
  obtain ⟨⟨hTZ, hDZ⟩, hPZ⟩ :
      (hasSub titleMarker Z = false ∧ hasSub descriptionMarker Z = false) ∧
        hasSub priceMarker Z = false := by
    simpa [markerFree] using hZ
  have hTne : titleMarker ≠ [] := by decide
  have hDne : descriptionMarker ≠ [] := by decide
  have hPne : priceMarker ≠ [] := by decide
  have hTp : hasSub titleMarker ([] : List Char) = false := hasSub_nil_eq_false hTne
  have t1 : hasSub titleMarker (priceMarker ++ ' ' :: Z) = false :=
    hasSub_append_cons_false (by decide) hTne (by decide) hTZ
  have t2 : hasSub titleMarker (Y ++ '\n' :: (priceMarker ++ ' ' :: Z)) = false :=
    hasSub_append_cons_false (by decide) hTne hTY t1
  have t3 : hasSub titleMarker
      (descriptionMarker ++ ' ' :: (Y ++ '\n' :: (priceMarker ++ ' ' :: Z))) = false :=
    hasSub_append_cons_false (by decide) hTne (by decide) t2
  have t4 : hasSub titleMarker
      (X ++ '\n' :: (descriptionMarker ++ ' ' :: (Y ++ '\n' :: (priceMarker ++ ' ' :: Z)))) =
        false :=
    hasSub_append_cons_false (by decide) hTne hTX t3
  have hTr : hasSub titleMarker
      ((' ' :: (X ++ ['\n'])) ++ descriptionMarker ++ (' ' :: (Y ++ ['\n'])) ++
        priceMarker ++ (' ' :: Z)) = false := by
    rw [show (' ' :: (X ++ ['\n'])) ++ descriptionMarker ++ (' ' :: (Y ++ ['\n'])) ++
        priceMarker ++ (' ' :: Z) =
        ' ' :: (X ++ '\n' :: (descriptionMarker ++ ' ' ::
          (Y ++ '\n' :: (priceMarker ++ ' ' :: Z)))) by simp]
    exact hasSub_cons_false (by decide) hTne t4
  have d1 : hasSub descriptionMarker (X ++ '\n' :: ([] : List Char)) = false :=
    hasSub_append_cons_false (by decide) hDne hDX (hasSub_nil_eq_false hDne)
  have hDa : hasSub descriptionMarker (' ' :: (X ++ ['\n'])) = false :=
    hasSub_cons_false (by decide) hDne d1
  have e1 : hasSub descriptionMarker (priceMarker ++ ' ' :: Z) = false :=
    hasSub_append_cons_false (by decide) hDne (by decide) hDZ
  have e2 : hasSub descriptionMarker (Y ++ '\n' :: (priceMarker ++ ' ' :: Z)) = false :=
    hasSub_append_cons_false (by decide) hDne hDY e1
  have hDr : hasSub descriptionMarker
      ((' ' :: (Y ++ ['\n'])) ++ priceMarker ++ (' ' :: Z)) = false := by
    rw [show (' ' :: (Y ++ ['\n'])) ++ priceMarker ++ (' ' :: Z) =
        ' ' :: (Y ++ '\n' :: (priceMarker ++ ' ' :: Z)) by simp]
    exact hasSub_cons_false (by decide) hDne e2
  have p1 : hasSub priceMarker (Y ++ '\n' :: ([] : List Char)) = false :=
    hasSub_append_cons_false (by decide) hPne hPY (hasSub_nil_eq_false hPne)
  have hPb : hasSub priceMarker (' ' :: (Y ++ ['\n'])) = false :=
    hasSub_cons_false (by decide) hPne p1
  have hPc : hasSub priceMarker (' ' :: Z) = false :=
    hasSub_cons_false (by decide) hPne hPZ
  have hnX : '−' ∉ X := fun hin => hmX '−' hin rfl
  have hnY : '−' ∉ Y := fun hin => hmY '−' hin rfl
  have hnZ : '−' ∉ Z := fun hin => hmZ '−' hin rfl
  have hM : ∀ ch ∈ ([] : List Char) ++ titleMarker ++ (' ' :: (X ++ ['\n'])) ++
      descriptionMarker ++ (' ' :: (Y ++ ['\n'])) ++ priceMarker ++ (' ' :: Z),
      ch ≠ '−' := by
    intro ch hch
    intro hcc
    subst hcc
    have hm1 : '−' ∉ titleMarker := by decide
    have hm2 : '−' ∉ descriptionMarker := by decide
    have hm3 : '−' ∉ priceMarker := by decide
    have hm4 : ¬('−' = ' ') := by decide
    have hm5 : ¬('−' = '\n') := by decide
    simp [hm1, hm2, hm3, hm4, hm5, hnX, hnY, hnZ] at hch
  have key := parseListing_structured [] (' ' :: (X ++ ['\n'])) (' ' :: (Y ++ ['\n']))
    (' ' :: Z) hTp hTr hDa hDr hPb hPc hM
  rw [show reconstructListing X Y Z = ([] : List Char) ++ titleMarker ++
      (' ' :: (X ++ ['\n'])) ++ descriptionMarker ++ (' ' :: (Y ++ ['\n'])) ++
      priceMarker ++ (' ' :: Z) by simp [reconstructListing], key,
    stripChars_pad_nl hsX, stripChars_pad_nl hsY, stripChars_pad_space hsZ, hlinks]

theorem parseListing_reconstruct_witness :
    parseListing (reconstructListing "Graco".toList "Nice".toList "$40".toList) =
      some ⟨"Graco".toList, "Nice".toList, "$40".toList, []⟩ := by
  have h := parseListing_reconstruct "Graco".toList "Nice".toList "$40".toList
    (by decide) (by decide) (by decide) (by decide) (by decide) (by decide)
    (by decide) (by decide) (by decide) (by decide)
  exact h
